import Mathlib

/-!
Verification of the merge-and-persist core of `scripts/update_data.py`
(contador-pascom-2025).

The script tallies signup rows by parish, merges the fresh tally with the
previously persisted JSON counter file using a per-key maximum, and rewrites
the file sorted by descending count.  Python dicts are modelled as
association lists `List (String × Nat)` in insertion order; dict keys are
unique, which appears below as `Nodup` hypotheses on the key list.
-/

namespace Contador

/-- A CountMap: Python dict from category label to count, in insertion order. -/
abbrev CountMap := List (String × Nat)

/-- The key list of a CountMap (dict key view, in order). -/
def keysOf (m : CountMap) : List String := m.map Prod.fst

/-- Test `startsWithChars needle hay`: `needle` is a leading segment of `hay`. -/
def startsWithChars : List Char → List Char → Bool
  | [], _ => true
  | _ :: _, [] => false
  | a :: as, b :: bs => a == b && startsWithChars as bs

/-- Test `containsChars needle hay`: `needle` occurs contiguously inside `hay`. -/
def containsChars (needle : List Char) : List Char → Bool
  | [] => startsWithChars needle []
  | c :: t => startsWithChars needle (c :: t) || containsChars needle t

/-- Python's `pat in s` substring test on strings. -/
def strContains (s pat : String) : Bool := containsChars pat.data s.data

/-- Python's `s.lower()`: lowercase each character.  (`Char.toLower` folds
the ASCII range; every label and keyword the script consults is unaffected
beyond ASCII, the keyword letter `ó` being lowercase already.) -/
def pyLower (s : String) : String := ⟨s.data.map Char.toLower⟩

/-- Truthiness of Python's `s.strip()`: true iff some character of `s` is not
whitespace, i.e. the stripped string is non-empty. -/
def pyStripNonEmpty (s : String) : Bool := !(s.data.all Char.isWhitespace)

/-- Python `d[k] = v` on a dict represented as an association list:
the entry with key `k` is updated in place (position preserved). -/
def updateKey (m : CountMap) (k : String) (v : Nat) : CountMap :=
  m.map fun p => if p.1 = k then (k, v) else p

/-- One iteration of the loop body of `merge_data` (script lines 143-150):
    `if paroquia in merged_data: merged_data[paroquia] = max(old, count)
     else: merged_data[paroquia] = count`. -/
def mergeStep (merged : CountMap) (p : String × Nat) : CountMap :=
  match List.lookup p.1 merged with
  | some v => updateKey merged p.1 (Nat.max v p.2)
  | none => merged ++ [p]

/-- Model of `merge_data(existing_data, new_data)` (script lines 136-152): start from a
copy of `existing_data` and fold the loop body over `new_data.items()`. -/
def merge_data (existing_data new_data : CountMap) : CountMap :=
  new_data.foldl mergeStep existing_data

/-- One element of `collections.Counter`'s tally loop: increment the count of
`s`, or create it at 1. -/
def countStep (acc : CountMap) (s : String) : CountMap :=
  match List.lookup s acc with
  | some v => updateKey acc s (v + 1)
  | none => acc ++ [(s, 1)]

/-- Model of `collections.Counter` applied to a list of strings, converted to a
dict (script lines 85-88): counts in order of first occurrence. -/
def counter (l : List String) : CountMap :=
  l.foldl countStep []

/-- The per-value filter of script line 82:
    `str(p).strip() and 'paróquia' in str(p).lower()`.
A value survives iff it is non-blank after trimming AND its lowercase form
contains the substring `"paróquia"`. -/
def keepLabel (p : String) : Bool :=
  pyStripNonEmpty p && strContains (pyLower p) "paróquia"

/-- The tabulation core of `process_paroquia_data` (script lines 82-88):
filter the label list by `keepLabel`, then count occurrences. -/
def tabulate (labels : List String) : CountMap :=
  counter (labels.filter keepLabel)

/-- A pandas DataFrame as read from the CSV: a header row of column names and
data rows of optional cells (`none` models NaN, dropped by `dropna()`). -/
structure Df where
  columns : List String
  rows : List (List (Option String))

/-- The keyword test of script line 64: the lowercased column name contains
one of `'paróquia'`, `'paroquia'`, `'cidade'`, `'qual sua'`. -/
def keywordMatch (c : String) : Bool :=
  let cl := pyLower c
  strContains cl "paróquia" || strContains cl "paroquia" ||
    strContains cl "cidade" || strContains cl "qual sua"

/-- Column selection of script lines 61-74: first column whose name matches a
keyword; otherwise the 5th column (index 4) when at least 5 columns exist;
otherwise detection fails. -/
def findParoquiaColumn (cols : List String) : Option Nat :=
  match cols.findIdx? keywordMatch with
  | some i => some i
  | none => if 5 ≤ cols.length then some 4 else none

/-- Model of `df[paroquia_column].dropna().tolist()` (script line 79): the chosen
column's cells with missing values removed. -/
def colValues (df : Df) (i : Nat) : List String :=
  df.rows.filterMap fun r => r.getD i none

/-- Model of `process_paroquia_data(df)` (script lines 50-101): `{}` when `df` is
`None` or empty; otherwise detect the parish column (returning `{}` when
detection fails) and tabulate its values. -/
def process_paroquia_data : Option Df → CountMap
  | none => []
  | some df =>
    if df.rows.isEmpty then []
    else
      match findParoquiaColumn df.columns with
      | some i => tabulate (colValues df i)
      | none => []

/-- The persisted `dados.json` file as the script can find it: absent,
unparseable, or holding a JSON object (a CountMap). -/
inductive StoredFile
  | missing
  | corrupt
  | good (m : CountMap)
deriving DecidableEq

/-- Model of `load_existing_data()` (script lines 103-116): return the parsed dict
when the file exists and parses; return `{}` when the file is absent (the
`os.path.exists` guard fails) or when `json.load` raises (caught by the
`except` clause). -/
def load_existing_data : StoredFile → CountMap
  | .good m => m
  | .corrupt => []
  | .missing => []

/-- Count comparison used by `save_data`: `a` sorts no later than `b` when
`a`'s count is at least `b`'s (descending by count). -/
def cntGE (a b : String × Nat) : Prop := b.2 ≤ a.2

instance : DecidableRel cntGE := fun a b => Nat.decLe b.2 a.2

instance : IsTotal (String × Nat) cntGE := ⟨fun a b => Nat.le_total b.2 a.2⟩

instance : IsTrans (String × Nat) cntGE := ⟨fun _ _ _ h1 h2 => Nat.le_trans h2 h1⟩

/-- Model of `sorted(data.items(), key=lambda x: x[1], reverse=True)` (script
line 124): a stable sort by descending count.  Python's `sorted` is stable and
insertion sort is stable, and a stable sort's output is determined by the
comparison, so `insertionSort` by `cntGE` computes the same list. -/
def sortDesc (m : CountMap) : CountMap := List.insertionSort cntGE m

/-- The file content written by a successful `save_data(data)` (script lines
118-134): the file is opened in mode `'w'` (prior content fully replaced) and
the sorted dict is dumped. -/
def save_data (m : CountMap) : StoredFile := .good (sortDesc m)

/-- Model of `main()` (script lines 154-194) after the sheet fetch, as a function of
the fetch result, the persisted file, and whether the save succeeds; returns
(exit code, resulting persisted file).  `failFile` stands for the
unspecified file state after a failed write.  The fetch returning `none`
models `get_sheet_data` swallowing any exception and returning `None`
(script lines 46-48). -/
def mainModel (fetched : Option Df) (file : StoredFile) (saveOk : Bool)
    (failFile : StoredFile) : Nat × StoredFile :=
  let new_data := process_paroquia_data fetched
  if new_data.isEmpty then (0, file)
  else
    let existing := load_existing_data file
    let final := merge_data existing new_data
    if saveOk then (0, save_data final) else (1, failFile)

/-! ### Association-list (Python dict) lemmas -/

theorem lookup_cons_pair (k : String) (p : String × Nat) (t : CountMap) :
    List.lookup k (p :: t) = if k = p.1 then some p.2 else List.lookup k t := by
  obtain ⟨a, b⟩ := p
  by_cases h : k = a
  · have hb : (k == a) = true := beq_iff_eq.mpr h
    simp [List.lookup_cons, hb, h]
  · have hb : (k == a) = false := beq_eq_false_iff_ne.mpr h
    simp [List.lookup_cons, hb, h]

theorem keysOf_updateKey (m : CountMap) (k : String) (v : Nat) :
    keysOf (updateKey m k v) = keysOf m := by
  simp only [keysOf, updateKey, List.map_map]
  refine List.map_congr_left fun p _ => ?_
  by_cases h : p.1 = k <;> simp [h]

theorem lookup_updateKey_self (m : CountMap) (k : String) (v : Nat) :
    List.lookup k (updateKey m k v) = (List.lookup k m).map fun _ => v := by
  induction m with
  | nil => rfl
  | cons p t ih =>
    obtain ⟨a, b⟩ := p
    show List.lookup k ((if a = k then (k, v) else (a, b)) :: updateKey t k v) = _
    by_cases h : k = a
    · subst h
      simp [lookup_cons_pair]
    · have h' : ¬ a = k := fun hc => h hc.symm
      rw [if_neg h', lookup_cons_pair, lookup_cons_pair, if_neg h, if_neg h]
      exact ih

theorem lookup_updateKey_ne (m : CountMap) {k k' : String} (v : Nat)
    (h : ¬ k = k') : List.lookup k (updateKey m k' v) = List.lookup k m := by
  induction m with
  | nil => rfl
  | cons p t ih =>
    obtain ⟨a, b⟩ := p
    show List.lookup k ((if a = k' then (k', v) else (a, b)) :: updateKey t k' v) = _
    by_cases ha : a = k'
    · rw [if_pos ha, lookup_cons_pair, lookup_cons_pair]
      have hk : ¬ k = a := ha ▸ h
      rw [if_neg h, if_neg hk]
      exact ih
    · rw [if_neg ha, lookup_cons_pair, lookup_cons_pair]
      by_cases hk : k = a
      · rw [if_pos hk, if_pos hk]
      · rw [if_neg hk, if_neg hk]
        exact ih

theorem lookup_eq_none_iff_keys (m : CountMap) (k : String) :
    List.lookup k m = none ↔ k ∉ keysOf m := by
  induction m with
  | nil => simp [keysOf]
  | cons p t ih =>
    rw [lookup_cons_pair]
    by_cases h : k = p.1
    · constructor
      · intro hc
        rw [if_pos h] at hc
        exact absurd hc (by simp)
      · intro hc
        exact absurd (by simp [keysOf, h] : k ∈ keysOf (p :: t)) hc
    · rw [if_neg h, ih]
      simp only [keysOf, List.map_cons, List.mem_cons]
      constructor
      · intro hc hmem
        rcases hmem with h1 | h2
        · exact h h1
        · exact hc h2
      · intro hc hmem
        exact hc (Or.inr hmem)

theorem mem_of_lookup_eq_some {m : CountMap} {k : String} {v : Nat}
    (h : List.lookup k m = some v) : (k, v) ∈ m := by
  induction m with
  | nil => simp at h
  | cons p t ih =>
    obtain ⟨a, b⟩ := p
    rw [lookup_cons_pair] at h
    by_cases hk : k = a
    · rw [if_pos hk] at h
      have hv : b = v := by
        simpa using h
      subst hv
      subst hk
      exact List.mem_cons_self _ _
    · rw [if_neg hk] at h
      exact List.mem_cons_of_mem _ (ih h)

theorem lookup_of_mem_nodup {m : CountMap} {k : String} {v : Nat}
    (hmem : (k, v) ∈ m) (hnd : (keysOf m).Nodup) : List.lookup k m = some v := by
  induction m with
  | nil => simp at hmem
  | cons p t ih =>
    simp only [keysOf, List.map_cons, List.nodup_cons] at hnd
    rcases List.mem_cons.mp hmem with heq | hmem'
    · rw [lookup_cons_pair, ← heq]
      simp
    · have hk : ¬ k = p.1 := fun hkp =>
        hnd.1 (hkp ▸ List.mem_map.mpr ⟨(k, v), hmem', rfl⟩)
      rw [lookup_cons_pair, if_neg hk]
      exact ih hmem' (by simpa [keysOf] using hnd.2)

theorem perm_lookup_eq {m₁ m₂ : CountMap} (hp : m₁.Perm m₂)
    (hnd : (keysOf m₁).Nodup) (k : String) :
    List.lookup k m₁ = List.lookup k m₂ := by
  have hpk : (keysOf m₁).Perm (keysOf m₂) := hp.map Prod.fst
  have hnd₂ : (keysOf m₂).Nodup := hpk.nodup_iff.mp hnd
  cases h : List.lookup k m₁ with
  | none =>
    rw [lookup_eq_none_iff_keys] at h
    have hk : k ∉ keysOf m₂ := fun hc => h (hpk.mem_iff.mpr hc)
    exact ((lookup_eq_none_iff_keys m₂ k).mpr hk).symm
  | some v =>
    have hm : (k, v) ∈ m₂ := hp.subset (mem_of_lookup_eq_some h)
    exact (lookup_of_mem_nodup hm hnd₂).symm

theorem keysOf_append_singleton_nodup {m : CountMap} (p : String × Nat)
    (hm : (keysOf m).Nodup) (hp : List.lookup p.1 m = none) :
    (keysOf (m ++ [p])).Nodup := by
  have hperm : (keysOf (m ++ [p])).Perm (keysOf (p :: m)) :=
    (List.perm_append_singleton p m).map Prod.fst
  rw [hperm.nodup_iff]
  simp only [keysOf, List.map_cons, List.nodup_cons]
  exact ⟨(lookup_eq_none_iff_keys m p.1).mp hp, hm⟩

theorem updateKey_eq_of_lookup_none {m : CountMap} {k : String} (v : Nat)
    (h : List.lookup k m = none) : updateKey m k v = m := by
  induction m with
  | nil => rfl
  | cons p t ih =>
    rw [lookup_cons_pair] at h
    by_cases hk : k = p.1
    · rw [if_pos hk] at h
      exact absurd h (by simp)
    · rw [if_neg hk] at h
      show (if p.1 = k then (k, v) else p) :: updateKey t k v = p :: t
      rw [if_neg (fun hc => hk hc.symm), ih h]

theorem updateKey_self_eq {m : CountMap} {k : String} {v : Nat}
    (hnd : (keysOf m).Nodup) (h : List.lookup k m = some v) :
    updateKey m k v = m := by
  induction m with
  | nil => rfl
  | cons p t ih =>
    simp only [keysOf, List.map_cons, List.nodup_cons] at hnd
    rw [lookup_cons_pair] at h
    show (if p.1 = k then (k, v) else p) :: updateKey t k v = p :: t
    by_cases hk : k = p.1
    · rw [if_pos hk] at h
      have hv : p.2 = v := by simpa using h
      have hnone : List.lookup k t = none := by
        rw [lookup_eq_none_iff_keys]
        exact hk ▸ hnd.1
      rw [if_pos hk.symm, updateKey_eq_of_lookup_none v hnone, hk, ← hv]
    · rw [if_neg hk] at h
      rw [if_neg (fun hc => hk hc.symm),
        ih (by simpa [keysOf] using hnd.2) h]

/-! ### Lemmas about `merge_data` -/

theorem merge_data_nil_right (A : CountMap) : merge_data A [] = A := rfl

theorem merge_data_cons (A : CountMap) (p : String × Nat) (B : CountMap) :
    merge_data A (p :: B) = merge_data (mergeStep A p) B := rfl

theorem keysOf_mergeStep_nodup {m : CountMap} (p : String × Nat)
    (hm : (keysOf m).Nodup) : (keysOf (mergeStep m p)).Nodup := by
  unfold mergeStep
  cases h : List.lookup p.1 m with
  | some v => rw [keysOf_updateKey]; exact hm
  | none => exact keysOf_append_singleton_nodup p hm h

theorem keysOf_merge_data_nodup (B : CountMap) :
    ∀ A : CountMap, (keysOf A).Nodup → (keysOf (merge_data A B)).Nodup := by
  induction B with
  | nil => intro A hA; exact hA
  | cons p B ih =>
    intro A hA
    rw [merge_data_cons]
    exact ih _ (keysOf_mergeStep_nodup p hA)

/-- Auxiliary combination of the two lookups describing one merged entry. -/
def mergeLookup (oa ob : Option Nat) : Option Nat :=
  match oa, ob with
  | some a, some b => some (Nat.max a b)
  | some a, none => some a
  | none, ob => ob

theorem lookup_mergeStep_self (A : CountMap) (p : String × Nat) :
    List.lookup p.1 (mergeStep A p) = mergeLookup (List.lookup p.1 A) (some p.2) := by
  unfold mergeStep
  cases h : List.lookup p.1 A with
  | some a =>
    rw [lookup_updateKey_self, h]
    rfl
  | none =>
    rw [List.lookup_append, h, Option.none_or, lookup_cons_pair]
    simp [mergeLookup]

theorem lookup_mergeStep_ne (A : CountMap) (p : String × Nat) {k : String}
    (hk : ¬ k = p.1) : List.lookup k (mergeStep A p) = List.lookup k A := by
  unfold mergeStep
  cases h : List.lookup p.1 A with
  | some a => exact lookup_updateKey_ne A _ hk
  | none =>
    rw [List.lookup_append, lookup_cons_pair, if_neg hk]
    simp

theorem lookup_merge_data (B : CountMap) :
    (keysOf B).Nodup → ∀ (A : CountMap) (k : String),
      List.lookup k (merge_data A B) =
        mergeLookup (List.lookup k A) (List.lookup k B) := by
  induction B with
  | nil =>
    intro _ A k
    rw [merge_data_nil_right, List.lookup_nil]
    cases List.lookup k A <;> rfl
  | cons p B ih =>
    intro hB A k
    simp only [keysOf, List.map_cons, List.nodup_cons] at hB
    rw [merge_data_cons, ih (by simpa [keysOf] using hB.2), lookup_cons_pair]
    by_cases hk : k = p.1
    · have hBnone : List.lookup k B = none := by
        rw [lookup_eq_none_iff_keys]
        exact hk ▸ hB.1
      rw [hBnone, if_pos hk, hk, lookup_mergeStep_self]
      cases List.lookup p.1 A <;> rfl
    · rw [if_neg hk, lookup_mergeStep_ne A p hk]

theorem merge_data_append_disjoint (B : CountMap) :
    (keysOf B).Nodup → ∀ A : CountMap,
      (∀ p ∈ B, List.lookup p.1 A = none) → merge_data A B = A ++ B := by
  induction B with
  | nil => intro _ A _; simp [merge_data_nil_right]
  | cons p B ih =>
    intro hB A hdisj
    simp only [keysOf, List.map_cons, List.nodup_cons] at hB
    have hpA : List.lookup p.1 A = none := hdisj p (List.mem_cons_self _ _)
    rw [merge_data_cons]
    have hstep : mergeStep A p = A ++ [p] := by
      unfold mergeStep
      rw [hpA]
    rw [hstep, ih (by simpa [keysOf] using hB.2)]
    · simp
    · intro q hq
      rw [List.lookup_append, hdisj q (List.mem_cons_of_mem _ hq),
        Option.none_or, lookup_cons_pair]
      have hqp : ¬ q.1 = p.1 := by
        intro hc
        exact hB.1 (hc ▸ List.mem_map.mpr ⟨q, hq, rfl⟩)
      rw [if_neg hqp]
      rfl

theorem merge_data_nil_left {B : CountMap} (hB : (keysOf B).Nodup) :
    merge_data [] B = B := by
  rw [merge_data_append_disjoint B hB [] (fun p _ => rfl)]
  rfl

theorem merge_data_absorb (B : CountMap) :
    ∀ C : CountMap, (keysOf C).Nodup →
      (∀ p ∈ B, ∃ m, List.lookup p.1 C = some m ∧ p.2 ≤ m) →
      merge_data C B = C := by
  induction B with
  | nil => intro C _ _; rfl
  | cons p B ih =>
    intro C hC habs
    obtain ⟨m, hm, hle⟩ := habs p (List.mem_cons_self _ _)
    have hstep : mergeStep C p = C := by
      unfold mergeStep
      rw [hm]
      show updateKey C p.1 (Nat.max m p.2) = C
      have hmax : Nat.max m p.2 = m := Nat.max_eq_left hle
      rw [hmax]
      exact updateKey_self_eq hC hm
    rw [merge_data_cons, hstep]
    exact ih C hC fun q hq => habs q (List.mem_cons_of_mem _ hq)

/-! ### Lemmas about `counter` and `process_paroquia_data` -/

theorem keysOf_countStep_nodup {m : CountMap} (s : String)
    (hm : (keysOf m).Nodup) : (keysOf (countStep m s)).Nodup := by
  unfold countStep
  cases h : List.lookup s m with
  | some v => rw [keysOf_updateKey]; exact hm
  | none => exact keysOf_append_singleton_nodup (s, 1) hm h

theorem keysOf_counter_aux_nodup (l : List String) :
    ∀ acc : CountMap, (keysOf acc).Nodup →
      (keysOf (l.foldl countStep acc)).Nodup := by
  induction l with
  | nil => intro acc hacc; exact hacc
  | cons s l ih =>
    intro acc hacc
    rw [List.foldl_cons]
    exact ih _ (keysOf_countStep_nodup s hacc)

theorem keysOf_counter_nodup (l : List String) : (keysOf (counter l)).Nodup :=
  keysOf_counter_aux_nodup l [] List.nodup_nil

theorem counter_aux_pos (l : List String) :
    ∀ acc : CountMap, (∀ k v, List.lookup k acc = some v → 1 ≤ v) →
      ∀ k v, List.lookup k (l.foldl countStep acc) = some v → 1 ≤ v := by
  induction l with
  | nil => intro acc hacc k v h; exact hacc k v h
  | cons s l ih =>
    intro acc hacc
    rw [List.foldl_cons]
    refine ih _ ?_
    intro k v h
    unfold countStep at h
    cases hs : List.lookup s acc with
    | some w =>
      rw [hs] at h
      by_cases hk : k = s
      · rw [hk, lookup_updateKey_self, hs] at h
        have : w + 1 = v := by simpa using h
        omega
      · rw [lookup_updateKey_ne acc _ hk] at h
        exact hacc k v h
    | none =>
      rw [hs] at h
      rw [List.lookup_append, lookup_cons_pair] at h
      cases ha : List.lookup k acc with
      | some w =>
        rw [ha] at h
        have : w = v := by simpa using h
        exact this ▸ hacc k w ha
      | none =>
        rw [ha, Option.none_or] at h
        by_cases hk : k = s
        · rw [if_pos hk] at h
          have : 1 = v := by simpa using h
          omega
        · rw [if_neg hk] at h
          exact absurd h (by simp)

theorem counter_pos (l : List String) :
    ∀ k v, List.lookup k (counter l) = some v → 1 ≤ v :=
  counter_aux_pos l [] (fun k v h => by simp at h)

theorem keysOf_tabulate_nodup (labels : List String) :
    (keysOf (tabulate labels)).Nodup :=
  keysOf_counter_nodup _

theorem process_some_eq (df : Df) :
    process_paroquia_data (some df) =
      if df.rows.isEmpty then []
      else
        match findParoquiaColumn df.columns with
        | some i => tabulate (colValues df i)
        | none => [] := rfl

theorem keysOf_process_nodup (odf : Option Df) :
    (keysOf (process_paroquia_data odf)).Nodup := by
  cases odf with
  | none => exact List.nodup_nil
  | some df =>
    rw [process_some_eq]
    by_cases h : df.rows.isEmpty
    · simp [h, keysOf]
    · rw [if_neg h]
      cases findParoquiaColumn df.columns with
      | some i => exact keysOf_tabulate_nodup _
      | none => exact List.nodup_nil

theorem process_pos (odf : Option Df) :
    ∀ k v, List.lookup k (process_paroquia_data odf) = some v → 1 ≤ v := by
  cases odf with
  | none =>
    intro k v h
    rw [show process_paroquia_data none = ([] : CountMap) from rfl] at h
    simp at h
  | some df =>
    rw [process_some_eq]
    by_cases h : df.rows.isEmpty
    · intro k v hv
      rw [if_pos h] at hv
      simp at hv
    · rw [if_neg h]
      cases findParoquiaColumn df.columns with
      | some i => exact counter_pos _
      | none => intro k v hv; simp at hv

/-! ### Stability and order of `sortDesc` -/

theorem filter_orderedInsert_of_eq (c : Nat) (a : String × Nat)
    (ha : a.2 = c) :
    ∀ l : CountMap,
      (List.orderedInsert cntGE a l).filter (fun p => p.2 == c) =
        a :: l.filter (fun p => p.2 == c) := by
  intro l
  induction l with
  | nil => simp [List.orderedInsert, List.filter, ha]
  | cons b t ih =>
    show (if cntGE a b then a :: b :: t else b :: List.orderedInsert cntGE a t).filter _ = _
    by_cases hab : cntGE a b
    · rw [if_pos hab]
      simp [List.filter, ha]
    · rw [if_neg hab]
      have hbc : ¬ b.2 = c := by
        unfold cntGE at hab
        omega
      have hb : (b.2 == c) = false := beq_eq_false_iff_ne.mpr hbc
      simp only [List.filter, hb, ih]

theorem filter_orderedInsert_of_ne (c : Nat) (a : String × Nat)
    (ha : ¬ a.2 = c) :
    ∀ l : CountMap,
      (List.orderedInsert cntGE a l).filter (fun p => p.2 == c) =
        l.filter (fun p => p.2 == c) := by
  intro l
  have haf : (a.2 == c) = false := beq_eq_false_iff_ne.mpr ha
  induction l with
  | nil => simp [List.orderedInsert, List.filter, haf]
  | cons b t ih =>
    show (if cntGE a b then a :: b :: t else b :: List.orderedInsert cntGE a t).filter _ = _
    by_cases hab : cntGE a b
    · rw [if_pos hab]
      simp only [List.filter, haf]
    · rw [if_neg hab]
      simp only [List.filter, ih]

theorem filter_sortDesc (m : CountMap) (c : Nat) :
    (sortDesc m).filter (fun p => p.2 == c) = m.filter (fun p => p.2 == c) := by
  induction m with
  | nil => rfl
  | cons a t ih =>
    show (List.orderedInsert cntGE a (sortDesc t)).filter (fun p => p.2 == c) =
      (a :: t).filter (fun p => p.2 == c)
    by_cases ha : a.2 = c
    · rw [filter_orderedInsert_of_eq c a ha, ih]
      have haf : (a.2 == c) = true := beq_iff_eq.mpr ha
      simp only [List.filter, haf]
    · rw [filter_orderedInsert_of_ne c a ha, ih]
      have haf : (a.2 == c) = false := beq_eq_false_iff_ne.mpr ha
      simp only [List.filter, haf]

theorem sortDesc_perm (m : CountMap) : (sortDesc m).Perm m :=
  List.perm_insertionSort cntGE m

theorem sortDesc_sorted (m : CountMap) :
    List.Pairwise (fun a b : String × Nat => b.2 ≤ a.2) (sortDesc m) :=
  List.sorted_insertionSort cntGE m

theorem mainModel_eq (fetched : Option Df) (file : StoredFile) (saveOk : Bool)
    (failFile : StoredFile) :
    mainModel fetched file saveOk failFile =
      if (process_paroquia_data fetched).isEmpty then (0, file)
      else if saveOk then
        (0, save_data (merge_data (load_existing_data file)
          (process_paroquia_data fetched)))
      else (1, failFile) := rfl

/-! ### The claims -/

/-- C1: for all CountMaps `A` and `B` (as Python dicts, their key lists are
duplicate-free), every key of `A` and every key of `B` is a key of
`merge_data A B`; a key present in both is mapped to the maximum of the two
counts; and a key present only in `A` keeps its value from `A` unchanged, so
the merge never removes a category. -/
theorem C1_merge_superset_max (A B : CountMap) (hB : (keysOf B).Nodup) :
    (∀ k, k ∈ keysOf A → k ∈ keysOf (merge_data A B)) ∧
    (∀ k, k ∈ keysOf B → k ∈ keysOf (merge_data A B)) ∧
    (∀ k a b, List.lookup k A = some a → List.lookup k B = some b →
      List.lookup k (merge_data A B) = some (Nat.max a b)) ∧
    (∀ k a, List.lookup k A = some a → List.lookup k B = none →
      List.lookup k (merge_data A B) = some a) := by
  have hmain := lookup_merge_data B hB A
  refine ⟨?_, ?_, ?_, ?_⟩
  · intro k hk
    obtain ⟨a, ha⟩ : ∃ a, List.lookup k A = some a := by
      cases hA : List.lookup k A with
      | none => exact absurd hk ((lookup_eq_none_iff_keys A k).mp hA)
      | some a => exact ⟨a, rfl⟩
    by_contra hmem
    have hnone := (lookup_eq_none_iff_keys _ k).mpr hmem
    rw [hmain k, ha] at hnone
    cases hB' : List.lookup k B <;> rw [hB'] at hnone <;>
      simp [mergeLookup] at hnone
  · intro k hk
    obtain ⟨b, hb⟩ : ∃ b, List.lookup k B = some b := by
      cases hBk : List.lookup k B with
      | none => exact absurd hk ((lookup_eq_none_iff_keys B k).mp hBk)
      | some b => exact ⟨b, rfl⟩
    by_contra hmem
    have hnone := (lookup_eq_none_iff_keys _ k).mpr hmem
    rw [hmain k, hb] at hnone
    cases hA' : List.lookup k A <;> rw [hA'] at hnone <;>
      simp [mergeLookup] at hnone
  · intro k a b ha hb
    rw [hmain k, ha, hb]
    rfl
  · intro k a ha hb
    rw [hmain k, ha, hb]
    rfl

/-- Witness for C1 at concrete maps. -/
theorem C1_merge_superset_max_witness :
    List.lookup "a" (merge_data [("a", 2)] [("a", 5), ("b", 1)]) =
      some (Nat.max 2 5) :=
  (C1_merge_superset_max [("a", 2)] [("a", 5), ("b", 1)]
    (by decide)).2.2.1 "a" 2 5 (by decide) (by decide)

/-- C5: the merge satisfies `merge(A, {}) = A`, `merge({}, B) = B`, and the
idempotence law `merge(merge(A, B), B) = merge(A, B)`, for CountMaps `A`, `B`
(as Python dicts, their key lists are duplicate-free). -/
theorem C5_merge_algebra (A B : CountMap) (hA : (keysOf A).Nodup)
    (hB : (keysOf B).Nodup) :
    merge_data A [] = A ∧ merge_data [] B = B ∧
    merge_data (merge_data A B) B = merge_data A B := by
  refine ⟨rfl, merge_data_nil_left hB, ?_⟩
  refine merge_data_absorb B (merge_data A B)
    (keysOf_merge_data_nodup B A hA) ?_
  intro p hp
  have hpB : List.lookup p.1 B = some p.2 := lookup_of_mem_nodup hp hB
  rw [lookup_merge_data B hB A p.1, hpB]
  cases hA' : List.lookup p.1 A with
  | some a => exact ⟨Nat.max a p.2, rfl, Nat.le_max_right a p.2⟩
  | none => exact ⟨p.2, rfl, Nat.le.refl⟩

/-- Witness for C5 at concrete maps. -/
theorem C5_merge_algebra_witness :
    merge_data [] [("b", 3)] = [("b", 3)] :=
  (C5_merge_algebra [("a", 2)] [("b", 3)] (by decide) (by decide)).2.1

/-- C3: evaluating the tabulation at the spec's example labels.  The filter on
script line 82 keeps only values whose lowercase form contains the substring
"paróquia" (its own comment says it should remove such header remnants, i.e.
the complement), so the three example labels are all discarded and the tally
is empty, not the claimed two-entry map. -/
theorem C3_tabulate_example :
    tabulate ["St. Mary", "St. Mary", "St. Anne"] = [] ∧
    tabulate ["St. Mary", "St. Mary", "St. Anne"] ≠
      [("St. Mary", 2), ("St. Anne", 1)] := by
  refine ⟨rfl, ?_⟩
  intro h
  exact absurd h (by decide)

/-- C4 counterexample: when the fetch fails (`get_sheet_data` returns `None`,
modelled as `none`), the run leaves the persisted file untouched but exits
with code 0, not the non-zero code the claim requires. -/
theorem C4_fetch_failure_counterexample :
    (mainModel none (.good [("a", 3)]) true .missing).1 = 0 ∧
    (mainModel none (.good [("a", 3)]) true .missing).2 = .good [("a", 3)] :=
  ⟨rfl, rfl⟩

/-- C4 amended: when the fetch of raw tabular data fails, the run aborts with
the persisted state left untouched and the process exits with code 0 — the
fetch failure is folded into the same soft "no new data" path. -/
theorem C4_fetch_failure_soft (file : StoredFile) (saveOk : Bool)
    (failFile : StoredFile) :
    mainModel none file saveOk failFile = (0, file) := rfl

/-- C9: loading the persisted state never fails the caller: a missing file and
an unparseable file both yield the empty CountMap, and in every case the load
returns a value (the empty map unless the file holds a parseable map `m`, in
which case it returns `m`). -/
theorem C9_load_never_fatal :
    load_existing_data .missing = [] ∧ load_existing_data .corrupt = [] ∧
    (∀ f, load_existing_data f = [] ∨
      ∃ m, f = .good m ∧ load_existing_data f = m) := by
  refine ⟨rfl, rfl, ?_⟩
  intro f
  cases f with
  | missing => exact Or.inl rfl
  | corrupt => exact Or.inl rfl
  | good m => exact Or.inr ⟨m, rfl, rfl⟩

/-- C2: over a successful run starting from persisted map `S` (a Python dict:
duplicate-free keys), the newly persisted map equals, as a mapping, the merge
of `S` with the freshly computed map via per-key maximum; consequently every
previously persisted count is still present and has not decreased, whatever
the fetch returned. -/
theorem C2_persisted_merge_monotone (odf : Option Df) (S : CountMap)
    (hS : (keysOf S).Nodup) (failFile : StoredFile) :
    (∀ k, List.lookup k
        (load_existing_data (mainModel odf (.good S) true failFile).2) =
      List.lookup k (merge_data S (process_paroquia_data odf))) ∧
    (∀ k v, List.lookup k S = some v →
      ∃ w, List.lookup k
          (load_existing_data (mainModel odf (.good S) true failFile).2) =
        some w ∧ v ≤ w) := by
  have hN := keysOf_process_nodup odf
  have hpart1 : ∀ k, List.lookup k
      (load_existing_data (mainModel odf (.good S) true failFile).2) =
      List.lookup k (merge_data S (process_paroquia_data odf)) := by
    intro k
    rw [mainModel_eq]
    by_cases hE : (process_paroquia_data odf).isEmpty
    · rw [if_pos hE]
      have hnil : process_paroquia_data odf = [] := List.isEmpty_iff.mp hE
      rw [hnil, merge_data_nil_right]
      rfl
    · rw [if_neg hE, if_pos rfl]
      show List.lookup k (sortDesc (merge_data S (process_paroquia_data odf))) = _
      have hmerge_nd : (keysOf (merge_data S (process_paroquia_data odf))).Nodup :=
        keysOf_merge_data_nodup _ S hS
      have hnd : (keysOf (sortDesc (merge_data S (process_paroquia_data odf)))).Nodup :=
        (((sortDesc_perm _).map Prod.fst).nodup_iff).mpr hmerge_nd
      exact perm_lookup_eq (sortDesc_perm _) hnd k
  refine ⟨hpart1, ?_⟩
  intro k v hv
  rw [hpart1 k, lookup_merge_data _ hN S k, hv]
  cases hB : List.lookup k (process_paroquia_data odf) with
  | some b => exact ⟨Nat.max v b, rfl, Nat.le_max_left v b⟩
  | none => exact ⟨v, rfl, Nat.le.refl⟩

/-- Witness for C2: a concrete run where a key of the prior state keeps a
count at least as large as before. -/
theorem C2_persisted_merge_monotone_witness :
    ∃ w, List.lookup "a"
        (load_existing_data
          (mainModel (some ⟨["paroquia"], [[some "Paróquia X"]]⟩)
            (.good [("a", 1)]) true .missing).2) = some w ∧ 1 ≤ w :=
  (C2_persisted_merge_monotone (some ⟨["paroquia"], [[some "Paróquia X"]]⟩)
    [("a", 1)] (by decide) .missing).2 "a" 1 (by decide)

/-- C6: saving a CountMap (with duplicate-free keys, as any Python dict) and
loading it back yields the same mapping: every key looks up to the same count
as in the original map. -/
theorem C6_save_load_roundtrip (M : CountMap) (hM : (keysOf M).Nodup)
    (k : String) :
    List.lookup k (load_existing_data (save_data M)) = List.lookup k M := by
  show List.lookup k (sortDesc M) = List.lookup k M
  have hnd : (keysOf (sortDesc M)).Nodup :=
    (((sortDesc_perm M).map Prod.fst).nodup_iff).mpr hM
  exact perm_lookup_eq (sortDesc_perm M) hnd k

/-- Witness for C6 at a concrete map and key. -/
theorem C6_save_load_roundtrip_witness :
    List.lookup "b" (load_existing_data (save_data [("b", 1), ("a", 2)])) =
      List.lookup "b" [("b", 1), ("a", 2)] :=
  C6_save_load_roundtrip [("b", 1), ("a", 2)] (by decide) "b"

/-- C7: a successful save writes exactly the sorted entries of the input map:
the written list is a permutation of the input (fully determined by it, the
prior file content playing no part), its counts are non-increasing, and for
every count value the entries carrying it appear in the input's own
(insertion) order — the sort is stable. -/
theorem C7_save_sorted_stable (M : CountMap) :
    save_data M = .good (sortDesc M) ∧
    (sortDesc M).Perm M ∧
    List.Pairwise (fun a b : String × Nat => b.2 ≤ a.2) (sortDesc M) ∧
    (∀ c, (sortDesc M).filter (fun p => p.2 == c) =
      M.filter (fun p => p.2 == c)) :=
  ⟨rfl, sortDesc_perm M, sortDesc_sorted M, fun c => filter_sortDesc M c⟩

/-- C8: whenever the freshly tabulated CountMap is empty, the run exits with
code 0 and the persisted file is exactly what it was before the run. -/
theorem C8_empty_tabulation_noop (odf : Option Df) (file : StoredFile)
    (saveOk : Bool) (failFile : StoredFile)
    (h : process_paroquia_data odf = []) :
    mainModel odf file saveOk failFile = (0, file) := by
  rw [mainModel_eq, h]
  rfl

/-- Witness for C8: a fetch whose only category cell is blank leaves a
concrete persisted file untouched and exits 0. -/
theorem C8_empty_tabulation_noop_witness :
    mainModel (some ⟨["paroquia"], [[some "  "]]⟩) (.good [("a", 2)]) true
      .missing = (0, .good [("a", 2)]) :=
  C8_empty_tabulation_noop (some ⟨["paroquia"], [[some "  "]]⟩)
    (.good [("a", 2)]) true .missing (by decide)

/-- C10: every count produced by the tabulator is at least 1, and whenever the
fresh data is non-empty the merged map that reaches the final statistics has
a positive number of entries with count > 0 (so the mean-per-active-category
division is never by zero). -/
theorem C10_tabulate_counts_positive :
    (∀ labels k v, List.lookup k (tabulate labels) = some v → 1 ≤ v) ∧
    (∀ (odf : Option Df) (file : StoredFile), process_paroquia_data odf ≠ [] →
      0 < ((merge_data (load_existing_data file)
        (process_paroquia_data odf)).filter fun p => decide (0 < p.2)).length) := by
  constructor
  · intro labels k v h
    exact counter_pos _ k v h
  · intro odf file hne
    obtain ⟨p, N, hPN⟩ : ∃ p N, process_paroquia_data odf = p :: N := by
      cases hP : process_paroquia_data odf with
      | nil => exact absurd hP hne
      | cons p N => exact ⟨p, N, rfl⟩
    have hval : List.lookup p.1 (process_paroquia_data odf) = some p.2 := by
      rw [hPN, lookup_cons_pair, if_pos rfl]
    have hpos : 1 ≤ p.2 := process_pos odf p.1 p.2 hval
    have hnd := keysOf_process_nodup odf
    have hm := lookup_merge_data _ hnd (load_existing_data file) p.1
    rw [hval] at hm
    obtain ⟨w, hw, hwpos⟩ : ∃ w, List.lookup p.1
        (merge_data (load_existing_data file) (process_paroquia_data odf)) =
          some w ∧ 0 < w := by
      cases hA : List.lookup p.1 (load_existing_data file) with
      | some a =>
        rw [hA] at hm
        exact ⟨Nat.max a p.2, hm,
          Nat.lt_of_lt_of_le hpos (Nat.le_max_right a p.2)⟩
      | none =>
        rw [hA] at hm
        exact ⟨p.2, hm, hpos⟩
    have hmem := mem_of_lookup_eq_some hw
    have hmemf : (p.1, w) ∈ (merge_data (load_existing_data file)
        (process_paroquia_data odf)).filter (fun p => decide (0 < p.2)) :=
      List.mem_filter.mpr ⟨hmem, by simpa using hwpos⟩
    exact List.length_pos_of_mem hmemf

/-- Witness for C10 at a concrete non-empty fetch. -/
theorem C10_tabulate_counts_positive_witness :
    0 < ((merge_data (load_existing_data .missing)
      (process_paroquia_data (some ⟨["paroquia"], [[some "Paróquia X"]]⟩))).filter
        fun p => decide (0 < p.2)).length :=
  C10_tabulate_counts_positive.2 (some ⟨["paroquia"], [[some "Paróquia X"]]⟩)
    .missing (by decide)

end Contador
